import Mathlib

/-
Verification of the Appleseed interactive shell (nutensils shell.c):
line editor, quoted-argument tokenizer, command registry/dispatcher,
history ring and file-redirection splice.

Bytes are modelled as natural numbers (the C code manipulates unsigned
chars); a C string inside the input buffer is modelled as the list of
its bytes up to (and excluding) the terminating 0, which the shell
maintains itself.  The capacities SHELL_CMD_BUFFER_SIZE (B),
SHELL_HISTORY_LENGTH (H) and SHELL_MAX_ARGS (maxArgs) are defined in a
header that is not part of the sources at hand, so they are kept as
explicit parameters throughout; the code uses them only symbolically.
-/

namespace Appleseed

/-- Quote detection of parse_input: a byte opens a quoted token when it
is a backtick (96), a single quote (39) or a double quote (34). -/
def isQuote (c : Nat) : Bool := c == 96 || c == 39 || c == 34

/-- The tokenizer loop of parse_input.  One fuel unit per loop
iteration; every iteration consumes at least one byte of the line, so
fuel `l.length + 1` (supplied by `tokenize`) always suffices, and
`tokenizeLoop_fuel_irrelevant` below shows the result does not depend
on the exact fuel once it is sufficient.

Each iteration mirrors the C loop body: skip a run of spaces (32); if
the first non-space byte is a quote it is consumed and becomes the
closing delimiter, otherwise the delimiter is a space; the token is the
bytes up to the closing delimiter, which is overwritten by 0 in place.
The token is recorded first and the capacity check `nargs >= maxArgs`
(here `slots ≤ 1`) happens immediately after recording, BEFORE the
delimiter scan: when the capacity is reached the loop breaks and the
recorded slice simply runs to the existing end-of-line terminator. -/
def tokenizeLoop : Nat → Nat → List Nat → List (List Nat)
  | 0, _, _ => []
  | fuel + 1, slots, l =>
    match l.dropWhile (· == 32) with
    | [] => []
    | c :: rest =>
      if isQuote c then
        if slots ≤ 1 then [rest]
        else
          rest.takeWhile (· != c) ::
            tokenizeLoop fuel (slots - 1) ((rest.dropWhile (· != c)).drop 1)
      else
        if slots ≤ 1 then [c :: rest]
        else
          (c :: rest).takeWhile (· != 32) ::
            tokenizeLoop fuel (slots - 1) (((c :: rest).dropWhile (· != 32)).drop 1)

/-- The argument slices produced by parse_input for a finalized line,
with argument capacity `maxArgs` (SHELL_MAX_ARGS). -/
def tokenize (maxArgs : Nat) (l : List Nat) : List (List Nat) :=
  tokenizeLoop (l.length + 1) maxArgs l

/-- Modelled from the spec: the tokenization described in the
specification text, with no argument-capacity limit.  "skips runs of
the space character; if the next non-space byte is a backtick,
single-quote, or double-quote, that quote character becomes the closing
delimiter for this token (the opening quote itself is consumed and not
part of the token) and the token runs until the matching delimiter or
end of line; otherwise the token runs until the next space or end of
line."  Used as the comparison target for the tokenizer claims. -/
def tokenizeSpecLoop : Nat → List Nat → List (List Nat)
  | 0, _ => []
  | fuel + 1, l =>
    match l.dropWhile (· == 32) with
    | [] => []
    | c :: rest =>
      if isQuote c then
        rest.takeWhile (· != c) ::
          tokenizeSpecLoop fuel ((rest.dropWhile (· != c)).drop 1)
      else
        (c :: rest).takeWhile (· != 32) ::
          tokenizeSpecLoop fuel (((c :: rest).dropWhile (· != 32)).drop 1)

/-- Modelled from the spec: spec-described tokenization of a whole line. -/
def tokenizeSpec (l : List Nat) : List (List Nat) :=
  tokenizeSpecLoop (l.length + 1) l

/-- strncmp(a, b, n) == 0, for NUL-free C strings a and b: the first n
bytes (stopping early at either terminator) agree. -/
def strncmp0 (a b : List Nat) (n : Nat) : Bool := a.take n == b.take n

/-- A registered command descriptor (shell_cmd_t): name, usage text and
the handler function, the latter identified by an opaque tag. -/
structure shell_cmd where
  name : List Nat
  usage : List Nat
  cmdfunc : Nat
deriving DecidableEq

/-- register_command: the new descriptor is linked in at the head of
the registry list. -/
def register_command (cmds : List shell_cmd) (cmd : shell_cmd) : List shell_cmd :=
  cmd :: cmds

/-- The matching loop of parse_input: walk the registry from the head
and stop at the first descriptor whose name compares equal to argument
0 under strncmp with bound `bound` (the code passes
sizeof(input_buffer) - 1). -/
def find_command (cmds : List shell_cmd) (arg0 : List Nat) (bound : Nat) :
    Option shell_cmd :=
  cmds.find? (fun c => strncmp0 arg0 c.name bound)

/-- The history append of parse_input: performed only for a non-empty
finalized line; the raw line is copied (strncpy, bounded by the slot
size minus one) into the slot at the write cursor, which then advances
and wraps to 0 when it reaches SHELL_HISTORY_LENGTH. -/
def push_history (B H : Nat) (line : List Nat) (hist : List (List Nat))
    (idx : Nat) : List (List Nat) × Nat :=
  if line = [] then (hist, idx)
  else
    (hist.set idx (line.take (B - 1)),
     if H ≤ idx + 1 then 0 else idx + 1)

/-- The args array after tokenization: it is memset to 0 first, so the
slots after the collected tokens hold null pointers. -/
def parse_args (maxArgs : Nat) (line : List Nat) : List (Option (List Nat)) :=
  (tokenize maxArgs line).map some ++
    List.replicate (maxArgs - (tokenize maxArgs line).length) none

/-- The transient per-line result of parse_input (current_command_t
plus the session fields parse_input mutates).  `arg0` is the pointer
stored in args[0] (none models the NULL left by memset when no token
was collected); `nullCompare` records that the matching loop ran its
strncmp with args[0] == NULL, which in the C code is undefined
behaviour. -/
structure ParseResult where
  cmd : Option shell_cmd
  args : List (Option (List Nat))
  nargs : Nat
  hist : List (List Nat)
  saveIdx : Nat
  arg0 : Option (List Nat)
  nullCompare : Bool
deriving DecidableEq

/-- The result of parse_input's matching loop: argument 0 (the head
token, when one was collected) compared against the registry names.
When no token was collected args[0] is the NULL left by memset and the
loop's strncmp runs on it (undefined behaviour in C, recorded by the
nullCompare field of ParseResult); no descriptor is returned then. -/
def found_command (cmds : List shell_cmd) (B maxArgs : Nat) (line : List Nat) :
    Option shell_cmd :=
  match (tokenize maxArgs line).head? with
  | some t => find_command cmds t (B - 1)
  | none => none

/-- parse_input: everything is guarded by `if(head)` — with an empty
registry nothing at all happens (no history append, no tokenization; the
stale args array is modelled as all-null).  Otherwise: append the raw
line to history (non-empty lines only), tokenize in place, walk the
registry comparing args[0] with each name, and on a match decrement
nargs by one (args[0] is just the command name). -/
def parse_input (cmds : List shell_cmd) (B maxArgs H : Nat) (line : List Nat)
    (hist : List (List Nat)) (saveIdx : Nat) : ParseResult :=
  match cmds with
  | [] => ⟨none, List.replicate maxArgs none, 0, hist, saveIdx, none, false⟩
  | _ :: _ =>
    let hp := push_history B H line hist saveIdx
    let toks := tokenize maxArgs line
    match found_command cmds B maxArgs line with
    | some c => ⟨some c, parse_args maxArgs line, toks.length - 1, hp.1, hp.2,
                 toks.head?, toks.head?.isNone⟩
    | none => ⟨none, parse_args maxArgs line, toks.length, hp.1, hp.2,
               toks.head?, toks.head?.isNone⟩

/-- The dispatcher call in prompt's newline branch:
shell_cmd_exec(cmd, writef, args + 1, nargs) — the handler receives the
argument array advanced by one slot and the already-decremented count. -/
def shell_cmd_exec_call (r : ParseResult) :
    Option (Nat × List (Option (List Nat)) × Nat) :=
  match r.cmd with
  | some c => some (c.cmdfunc, r.args.drop 1, r.nargs)
  | none => none

/-- history[i] of the shell instance: slots are calloc-zeroed, so an
index outside the written part reads as the empty string. -/
def getEntry : List (List Nat) → Nat → List Nat
  | [], _ => []
  | e :: _, 0 => e
  | _ :: t, n + 1 => getEntry t n

/-- Insertion of a byte at the cursor: the bytes at and after the
cursor are shifted one slot to the right (the for-loop running from
input_index down to cursor + 1) and the byte is stored at the cursor. -/
def insertAt (l : List Nat) (i : Nat) (d : Nat) : List Nat :=
  l.take i ++ d :: l.drop i

/-- Removal of the byte at index i: the bytes after it are shifted one
slot to the left (the for-loop copying input_buffer[i+1] over
input_buffer[i]). -/
def removeAt (l : List Nat) (i : Nat) : List Nat :=
  l.take i ++ l.drop (i + 1)

/-- The editing state of one shell instance (shell_instance_t), at the
level of the line content: `line` is the buffer content below the
terminator, so `line.length` is input_index. -/
structure EdState where
  line : List Nat
  cursor : Nat
  hist : List (List Nat)
  histIdx : Int
  saveIdx : Nat
  exitflag : Bool
deriving DecidableEq

/-- historic_prompt: with the history index inside [0, H) and a
non-empty stored entry, the buffer is replaced by the entry (strncpy
bounded by B - 1; the byte at B - 1 is never written by the editor, so
strlen after the copy is the entry length capped at B - 1) and both
cursor and input_index are set to its length.  With the index inside
range but an empty entry nothing happens at all.  With the index out of
range the prompt is cleared to the empty line. -/
def historic (B H : Nat) (s : EdState) : EdState :=
  if 0 ≤ s.histIdx ∧ s.histIdx < (H : Int) then
    if getEntry s.hist s.histIdx.toNat = [] then s
    else
      { s with line := (getEntry s.hist s.histIdx.toNat).take (B - 1),
               cursor := ((getEntry s.hist s.histIdx.toNat).take (B - 1)).length }
  else
    { s with line := [], cursor := 0 }

/-- The editing operations decoded by prompt's switch on the incoming
byte(s): a plain byte, backspace (0x7F), the ESC [ 3 ~ delete sequence,
the ESC [ A/B/C/D arrow sequences, the ESC O H/F home/end sequences,
and newline.  The multi-byte sequences are read to completion inside a
single loop iteration, so each constructor is one iteration of the
prompt loop. -/
inductive Ev where
  | ch (d : Nat)
  | back
  | del
  | left
  | right
  | home
  | toEnd
  | up
  | down
  | nl
deriving DecidableEq

/-- One iteration of the prompt loop acting on the editing state.
Printable bytes (≥ 32) are inserted at the cursor when
input_index < B - 1; when the buffer is full the edit area is reset to
hold just the newly typed byte (input_index = cursor = 1,
buffer[0] = data).  Bytes below 32 other than the decoded control
sequences are ignored.  Newline terminates the buffer, runs
parse_input (whose history effects are kept) and resets cursor and
input_index to 0. -/
def shell_step (B H maxArgs : Nat) (cmds : List shell_cmd) (s : EdState) :
    Ev → EdState
  | Ev.ch d =>
    if d < 32 then s
    else if s.line.length < B - 1 then
      { s with line := insertAt s.line s.cursor d, cursor := s.cursor + 1 }
    else
      { s with line := [d], cursor := 1 }
  | Ev.back =>
    if 0 < s.cursor then
      { s with line := removeAt s.line (s.cursor - 1), cursor := s.cursor - 1 }
    else s
  | Ev.del =>
    if s.cursor < s.line.length then
      { s with line := removeAt s.line s.cursor }
    else s
  | Ev.left => if 0 < s.cursor then { s with cursor := s.cursor - 1 } else s
  | Ev.right =>
    if s.cursor < s.line.length then { s with cursor := s.cursor + 1 } else s
  | Ev.home => { s with cursor := 0 }
  | Ev.toEnd => { s with cursor := s.line.length }
  | Ev.up =>
    historic B H
      { s with histIdx := if s.histIdx - 1 < 0 then (H : Int) - 1 else s.histIdx - 1 }
  | Ev.down => historic B H { s with histIdx := -1 }
  | Ev.nl =>
    let r := parse_input cmds B maxArgs H s.line s.hist s.saveIdx
    { s with line := [], cursor := 0, hist := r.hist, saveIdx := r.saveIdx }

/-- The state shell_instance_thread sets up before entering the loop. -/
def edInit (H : Nat) : EdState :=
  ⟨[], 0, List.replicate H [], -1, 0, false⟩

/-- The editing state after a sequence of decoded input events. -/
def edRun (B H maxArgs : Nat) (cmds : List shell_cmd) (evs : List Ev) : EdState :=
  evs.foldl (shell_step B H maxArgs cmds) (edInit H)

/-- Repeated history appends (one per finalized non-empty line). -/
def history_run (B H : Nat) (lines : List (List Nat)) (hist : List (List Nat))
    (idx : Nat) : List (List Nat) × Nat :=
  lines.foldl (fun p l => push_history B H l p.1 p.2) (hist, idx)

/-- The input-redirection state of the prompt loop: the bytes of the
open file not yet read, whether a redirection is active (st_size ≠ 0),
the pending injected byte, and the current and saved read descriptors. -/
structure RdState where
  remaining : List Nat
  stActive : Bool
  inject : Option Nat
  readf : Int
  savereadf : Int
deriving DecidableEq

/-- The head of one prompt-loop iteration while a redirection is in
progress: take the pending injected byte if any, otherwise read one
byte from the file; then, if the redirection is active and the read
position has reached the recorded size, close the file, restore the
saved descriptor as the byte source, clear st_size/st_mode (modelled by
stActive := false) and, when the byte just read is not a newline,
schedule a single injected newline for the next iteration.  Returns
none when the next read would come from the restored connection (or
would hit end of file), i.e. when the file phase is over. -/
def read_iteration (s : RdState) : Option (Nat × RdState) :=
  let dataRead : Option (Nat × RdState) :=
    match s.inject with
    | some b => some (b, { s with inject := none })
    | none =>
      if s.stActive then
        match s.remaining with
        | [] => none
        | b :: rest => some (b, { s with remaining := rest })
      else none
  match dataRead with
  | none => none
  | some (b, s1) =>
    if s1.stActive ∧ s1.remaining = [] then
      some (b, { s1 with stActive := false, readf := s1.savereadf,
                         inject := if b ≠ 10 then some (10 : Nat) else none })
    else some (b, s1)

/-- Iterating read_iteration; fuel-bounded, one unit per iteration.
Each iteration either consumes a file byte or the single pending
injection, so 2 * remaining + 2 units (supplied by rd_trace) always
reach the end of the file phase. -/
def rd_loop : Nat → RdState → List Nat × RdState
  | 0, s => ([], s)
  | fuel + 1, s =>
    match read_iteration s with
    | none => ([], s)
    | some (b, s') =>
      let p := rd_loop fuel s'
      (b :: p.1, p.2)

/-- The full sequence of bytes the line editor processes during a file
redirection, together with the state at the moment the byte source is
back to the connection. -/
def rd_trace (s : RdState) : List Nat × RdState :=
  rd_loop (2 * s.remaining.length + 2) s

/-- Modelled from the spec: the byte stream the last-line splice is
meant to produce — the file's bytes, with one newline appended when the
file does not already end in one. -/
def trailing_newline_splice (file : List Nat) : List Nat :=
  if file.getLast? = some 10 then file else file ++ [10]

/-- Outcome of the dispatch chain in prompt's newline branch (lines
after parse_input returns): whether the matched handler was executed,
whether the SHELL_NO_SUCH_COMMAND message plus args[0] was written,
and the resulting descriptor/redirection fields. -/
structure NlResult where
  execHandler : Bool
  wroteNoSuchCmd : Bool
  readf : Int
  savereadf : Int
  stSize : Nat
  stMode : Nat
  redirOpened : Bool
deriving DecidableEq

/-- The if/else-if chain of prompt's newline branch.  In order: a
matched command executes its handler; otherwise, when no redirection is
active (st_size == 0) and stat succeeds on the line, a regular file of
non-zero size is opened — on open failure the saved descriptor is put
back and st_size/st_mode are zeroed, with NO message (the unknown-command
branch below is on the same else-if chain and is skipped because the
stat branch was taken); otherwise, when args[0] is a non-null pointer,
the error message and args[0] are written.  `statRes` is the
(st_mode, st_size) pair of a successful stat, none for failure (on
failure the C stat leaves the buffer unchanged); `openRes` is the
descriptor of a successful open, none when open returns -1;
`sIfReg` is the platform's S_IFREG constant. -/
def newline_dispatch (cmdMatched : Bool) (readf0 savereadf0 : Int)
    (stSize0 stMode0 : Nat) (statRes : Option (Nat × Nat)) (sIfReg : Nat)
    (openRes : Option Int) (arg0present : Bool) : NlResult :=
  if cmdMatched then
    ⟨true, false, readf0, savereadf0, stSize0, stMode0, false⟩
  else if stSize0 = 0 then
    match statRes with
    | some (mode, size) =>
      if mode = sIfReg ∧ size ≠ 0 then
        match openRes with
        | none => ⟨false, false, readf0, readf0, 0, 0, false⟩
        | some fd => ⟨false, false, fd, readf0, size, mode, true⟩
      else ⟨false, false, readf0, savereadf0, size, mode, false⟩
    | none =>
      if arg0present then ⟨false, true, readf0, savereadf0, stSize0, stMode0, false⟩
      else ⟨false, false, readf0, savereadf0, stSize0, stMode0, false⟩
  else
    if arg0present then ⟨false, true, readf0, savereadf0, stSize0, stMode0, false⟩
    else ⟨false, false, readf0, savereadf0, stSize0, stMode0, false⟩

/-- The invariant maintained by the prompt loop over the editing state:
the cursor never passes the end of input, the end of input never passes
index B - 1 (the terminator byte then sits at index B - 1, the last
byte of the buffer), and every history slot holds at most B - 1 bytes. -/
def EdInv (B : Nat) (s : EdState) : Prop :=
  s.cursor ≤ s.line.length ∧ s.line.length ≤ B - 1 ∧
    ∀ i, (getEntry s.hist i).length ≤ B - 1

/-- A sample registered command named "ls" (bytes 108 115). -/
def lsCmd : shell_cmd := ⟨[108, 115], [], 7⟩

/-- A first registration of a command named "foo" (bytes 102 111 111). -/
def fooCmd1 : shell_cmd := ⟨[102, 111, 111], [], 1⟩

/-- A second registration of the same name "foo" with another handler. -/
def fooCmd2 : shell_cmd := ⟨[102, 111, 111], [], 2⟩

theorem length_dropWhile_le' (p : Nat → Bool) (l : List Nat) :
    (l.dropWhile p).length ≤ l.length := by
  induction l with
  | nil => simp [List.dropWhile]
  | cons a t ih =>
    rw [List.dropWhile_cons]
    by_cases h : p a
    · simp only [h, if_pos]
      exact Nat.le_trans ih (Nat.le_succ _)
    · simp [h]

theorem dropWhile_head_false (p : Nat → Bool) (l : List Nat) (c : Nat)
    (rest : List Nat) (h : l.dropWhile p = c :: rest) : p c = false := by
  induction l with
  | nil => simp [List.dropWhile] at h
  | cons a t ih =>
    rw [List.dropWhile_cons] at h
    by_cases hp : p a
    · rw [if_pos hp] at h
      exact ih h
    · rw [if_neg hp] at h
      cases h
      simpa using hp

theorem dropWhile_cons_len (p : Nat → Bool) (l : List Nat) (c : Nat)
    (rest : List Nat) (h : l.dropWhile p = c :: rest) :
    rest.length + 1 ≤ l.length := by
  have := length_dropWhile_le' p l
  rw [h] at this
  simpa using this

theorem next_len_quote (l : List Nat) (c : Nat) (rest : List Nat)
    (h : l.dropWhile (· == 32) = c :: rest) :
    ((rest.dropWhile (· != c)).drop 1).length < l.length := by
  have h1 := dropWhile_cons_len _ _ _ _ h
  have h2 := length_dropWhile_le' (· != c) rest
  have h3 : ((rest.dropWhile (· != c)).drop 1).length ≤ (rest.dropWhile (· != c)).length := by
    rw [List.length_drop]; omega
  omega

theorem next_len_word (l : List Nat) (c : Nat) (rest : List Nat)
    (h : l.dropWhile (· == 32) = c :: rest) :
    (((c :: rest).dropWhile (· != 32)).drop 1).length < l.length := by
  have hc : ((· == 32) : Nat → Bool) c = false := dropWhile_head_false (· == 32) l c rest h
  have hc' : ((· != 32) : Nat → Bool) c = true := by
    simp only [bne]
    simp only at hc
    rw [hc]
    rfl
  have h1 := dropWhile_cons_len _ _ _ _ h
  have h2 : (c :: rest).dropWhile (· != 32) = rest.dropWhile (· != 32) := by
    rw [List.dropWhile_cons, if_pos hc']
  have h3 := length_dropWhile_le' (· != 32) rest
  rw [h2, List.length_drop]
  omega

theorem tokenizeSpecLoop_fuel_irrelevant (f1 : Nat) :
    ∀ (f2 : Nat) (l : List Nat), l.length < f1 → l.length < f2 →
      tokenizeSpecLoop f1 l = tokenizeSpecLoop f2 l := by
  induction f1 with
  | zero => intro f2 l h1 h2; omega
  | succ f ih =>
    intro f2 l h1 h2
    match f2, h2 with
    | g + 1, h2 =>
      simp only [tokenizeSpecLoop]
      cases hdrop : l.dropWhile (· == 32) with
      | nil => rfl
      | cons c rest =>
        by_cases hq : isQuote c = true
        · simp only [if_pos hq]
          have hn := next_len_quote l c rest hdrop
          rw [ih g _ (by omega) (by omega)]
        · simp only [if_neg hq]
          have hn := next_len_word l c rest hdrop
          rw [ih g _ (by omega) (by omega)]

theorem tokenizeLoop_fuel_irrelevant (f1 : Nat) :
    ∀ (f2 slots : Nat) (l : List Nat), l.length < f1 → l.length < f2 →
      tokenizeLoop f1 slots l = tokenizeLoop f2 slots l := by
  induction f1 with
  | zero => intro f2 slots l h1 h2; omega
  | succ f ih =>
    intro f2 slots l h1 h2
    match f2, h2 with
    | g + 1, h2 =>
      simp only [tokenizeLoop]
      cases hdrop : l.dropWhile (· == 32) with
      | nil => rfl
      | cons c rest =>
        by_cases hs : slots ≤ 1
        · by_cases hq : isQuote c = true
          · simp only [if_pos hq, if_pos hs]
          · simp only [if_neg hq, if_pos hs]
        · by_cases hq : isQuote c = true
          · simp only [if_pos hq, if_neg hs]
            have hn := next_len_quote l c rest hdrop
            rw [ih g _ _ (by omega) (by omega)]
          · simp only [if_neg hq, if_neg hs]
            have hn := next_len_word l c rest hdrop
            rw [ih g _ _ (by omega) (by omega)]

theorem tokenizeSpec_drop_nil (l : List Nat)
    (h : l.dropWhile (· == 32) = []) : tokenizeSpec l = [] := by
  simp only [tokenizeSpec, tokenizeSpecLoop]
  rw [h]

theorem tokenizeSpec_drop_cons (l : List Nat) (c : Nat) (rest : List Nat)
    (h : l.dropWhile (· == 32) = c :: rest) :
    tokenizeSpec l =
      (if isQuote c then rest.takeWhile (· != c)
       else (c :: rest).takeWhile (· != 32)) ::
        tokenizeSpec (if isQuote c then (rest.dropWhile (· != c)).drop 1
                      else ((c :: rest).dropWhile (· != 32)).drop 1) := by
  by_cases hq : isQuote c = true
  · have hstep : tokenizeSpec l =
        rest.takeWhile (· != c) ::
          tokenizeSpecLoop l.length ((rest.dropWhile (· != c)).drop 1) := by
      simp only [tokenizeSpec, tokenizeSpecLoop]
      rw [h]
      simp only [if_pos hq]
    rw [hstep]
    simp only [if_pos hq]
    have hn := next_len_quote l c rest h
    rw [tokenizeSpecLoop_fuel_irrelevant l.length
      (((rest.dropWhile (· != c)).drop 1).length + 1)
      ((rest.dropWhile (· != c)).drop 1) (by omega) (by omega)]
    rfl
  · have hstep : tokenizeSpec l =
        (c :: rest).takeWhile (· != 32) ::
          tokenizeSpecLoop l.length (((c :: rest).dropWhile (· != 32)).drop 1) := by
      simp only [tokenizeSpec, tokenizeSpecLoop]
      rw [h]
      simp only [if_neg hq]
    rw [hstep]
    simp only [if_neg hq]
    have hn := next_len_word l c rest h
    rw [tokenizeSpecLoop_fuel_irrelevant l.length
      ((((c :: rest).dropWhile (· != 32)).drop 1).length + 1)
      (((c :: rest).dropWhile (· != 32)).drop 1) (by omega) (by omega)]
    rfl

theorem tokenize_eq_spec_of_lt :
    ∀ (fuel : Nat) (l : List Nat) (slots : Nat), l.length < fuel →
      (tokenizeSpec l).length < slots →
      tokenizeLoop fuel slots l = tokenizeSpec l := by
  intro fuel
  induction fuel with
  | zero => intro l slots h1 h2; omega
  | succ f ih =>
    intro l slots h1 hs
    simp only [tokenizeLoop]
    cases hdrop : l.dropWhile (· == 32) with
    | nil => rw [tokenizeSpec_drop_nil l hdrop]
    | cons c rest =>
      rw [tokenizeSpec_drop_cons l c rest hdrop] at hs ⊢
      by_cases hq : isQuote c = true
      · simp only [if_pos hq] at hs ⊢
        rw [List.length_cons] at hs
        have hslots : ¬ slots ≤ 1 := by omega
        simp only [if_neg hslots]
        have hn := next_len_quote l c rest hdrop
        have hrec := ih ((rest.dropWhile (· != c)).drop 1) (slots - 1)
          (by omega) (by omega)
        rw [hrec]
      · simp only [if_neg hq] at hs ⊢
        rw [List.length_cons] at hs
        have hslots : ¬ slots ≤ 1 := by omega
        simp only [if_neg hslots]
        have hn := next_len_word l c rest hdrop
        have hrec := ih (((c :: rest).dropWhile (· != 32)).drop 1) (slots - 1)
          (by omega) (by omega)
        rw [hrec]

theorem tokenize_take_eq_spec :
    ∀ (fuel : Nat) (l : List Nat) (slots : Nat), l.length < fuel → 1 ≤ slots →
      (tokenizeLoop fuel slots l).take (slots - 1) =
        (tokenizeSpec l).take (slots - 1) := by
  intro fuel
  induction fuel with
  | zero => intro l slots h1 h2; omega
  | succ f ih =>
    intro l slots h1 hs
    simp only [tokenizeLoop]
    cases hdrop : l.dropWhile (· == 32) with
    | nil => rw [tokenizeSpec_drop_nil l hdrop]
    | cons c rest =>
      rw [tokenizeSpec_drop_cons l c rest hdrop]
      by_cases hone : slots ≤ 1
      · have hs1 : slots = 1 := by omega
        subst hs1
        simp
      · have h2 : slots - 1 = (slots - 2) + 1 := by omega
        by_cases hq : isQuote c = true
        · simp only [if_pos hq, if_neg hone]
          rw [h2, List.take_succ_cons, List.take_succ_cons]
          have hn := next_len_quote l c rest hdrop
          have hrec := ih ((rest.dropWhile (· != c)).drop 1) (slots - 1)
            (by omega) (by omega)
          have h3 : slots - 1 - 1 = slots - 2 := by omega
          rw [h3] at hrec
          rw [h2] at hrec
          rw [hrec]
        · simp only [if_neg hq, if_neg hone]
          rw [h2, List.take_succ_cons, List.take_succ_cons]
          have hn := next_len_word l c rest hdrop
          have hrec := ih (((c :: rest).dropWhile (· != 32)).drop 1) (slots - 1)
            (by omega) (by omega)
          have h3 : slots - 1 - 1 = slots - 2 := by omega
          rw [h3] at hrec
          rw [h2] at hrec
          rw [hrec]

theorem tokenize_len_le :
    ∀ (fuel : Nat) (l : List Nat) (slots : Nat), 1 ≤ slots →
      (tokenizeLoop fuel slots l).length ≤ slots := by
  intro fuel
  induction fuel with
  | zero => intro l slots hs; simp [tokenizeLoop]
  | succ f ih =>
    intro l slots hs
    simp only [tokenizeLoop]
    cases hdrop : l.dropWhile (· == 32) with
    | nil => simp
    | cons c rest =>
      by_cases hone : slots ≤ 1
      · by_cases hq : isQuote c = true
        · simp only [if_pos hq, if_pos hone, List.length_singleton]
          omega
        · simp only [if_neg hq, if_pos hone, List.length_singleton]
          omega
      · by_cases hq : isQuote c = true
        · simp only [if_pos hq, if_neg hone, List.length_cons]
          have := ih ((rest.dropWhile (· != c)).drop 1) (slots - 1) (by omega)
          omega
        · simp only [if_neg hq, if_neg hone, List.length_cons]
          have := ih (((c :: rest).dropWhile (· != 32)).drop 1) (slots - 1) (by omega)
          omega

theorem tokenize_eq_tokenizeSpec (maxArgs : Nat) (l : List Nat)
    (h : (tokenizeSpec l).length < maxArgs) :
    tokenize maxArgs l = tokenizeSpec l :=
  tokenize_eq_spec_of_lt (l.length + 1) l maxArgs (by omega) h

theorem tokenize_take (maxArgs : Nat) (l : List Nat) (h : 1 ≤ maxArgs) :
    (tokenize maxArgs l).take (maxArgs - 1) =
      (tokenizeSpec l).take (maxArgs - 1) :=
  tokenize_take_eq_spec (l.length + 1) l maxArgs (by omega) h

theorem tokenize_length_le (maxArgs : Nat) (l : List Nat) (h : 1 ≤ maxArgs) :
    (tokenize maxArgs l).length ≤ maxArgs :=
  tokenize_len_le (l.length + 1) l maxArgs h

theorem getEntry_replicate (n i : Nat) :
    getEntry (List.replicate n ([] : List Nat)) i = [] := by
  induction n generalizing i with
  | zero => cases i <;> rfl
  | succ m ih =>
    cases i with
    | zero => rfl
    | succ j => simpa [List.replicate, getEntry] using ih j

theorem getEntry_set_cases (h : List (List Nat)) :
    ∀ (j i : Nat) (v : List Nat),
      getEntry (h.set j v) i = v ∨ getEntry (h.set j v) i = getEntry h i := by
  induction h with
  | nil => intro j i v; right; rfl
  | cons a t ih =>
    intro j i v
    cases j with
    | zero =>
      cases i with
      | zero => left; rfl
      | succ k => right; rfl
    | succ j' =>
      cases i with
      | zero => right; rfl
      | succ k => simpa [List.set, getEntry] using ih j' k v

theorem getEntry_set_self (h : List (List Nat)) :
    ∀ (j : Nat) (v : List Nat), j < h.length → getEntry (h.set j v) j = v := by
  induction h with
  | nil => intro j v hj; simp at hj
  | cons a t ih =>
    intro j v hj
    cases j with
    | zero => rfl
    | succ j' => simpa [List.set, getEntry] using ih j' v (by simpa using hj)

theorem take_ne_nil_of_ne_nil (l : List Nat) (n : Nat) (hl : l ≠ [])
    (hn : 1 ≤ n) : l.take n ≠ [] := by
  cases l with
  | nil => exact absurd rfl hl
  | cons a t =>
    cases n with
    | zero => omega
    | succ m => simp [List.take]

theorem insertAt_length (l : List Nat) (i d : Nat) (hi : i ≤ l.length) :
    (insertAt l i d).length = l.length + 1 := by
  simp only [insertAt, List.length_append, List.length_take, List.length_cons,
    List.length_drop]
  omega

theorem removeAt_length (l : List Nat) (i : Nat) (hi : i < l.length) :
    (removeAt l i).length = l.length - 1 := by
  simp only [removeAt, List.length_append, List.length_take, List.length_drop]
  omega

theorem push_history_entry_le (B H : Nat) (line : List Nat)
    (hist : List (List Nat)) (idx : Nat)
    (h3 : ∀ i, (getEntry hist i).length ≤ B - 1) :
    ∀ i, (getEntry (push_history B H line hist idx).1 i).length ≤ B - 1 := by
  intro i
  unfold push_history
  by_cases hl : line = []
  · rw [if_pos hl]
    exact h3 i
  · rw [if_neg hl]
    rcases getEntry_set_cases hist idx i (line.take (B - 1)) with hc | hc
    · rw [hc, List.length_take]
      omega
    · rw [hc]
      exact h3 i

theorem push_history_length (B H : Nat) (line : List Nat)
    (hist : List (List Nat)) (idx : Nat) :
    (push_history B H line hist idx).1.length = hist.length := by
  unfold push_history
  by_cases hl : line = []
  · rw [if_pos hl]
  · rw [if_neg hl]
    exact List.length_set hist idx _

theorem push_history_idx_mod (B H : Nat) (line : List Nat)
    (hist : List (List Nat)) (idx : Nat) (hidx : idx < H) (hline : line ≠ []) :
    (push_history B H line hist idx).2 = (idx + 1) % H := by
  unfold push_history
  rw [if_neg hline]
  by_cases h : H ≤ idx + 1
  · rw [if_pos h]
    have he : idx + 1 = H := by omega
    rw [he, Nat.mod_self]
  · rw [if_neg h]
    rw [Nat.mod_eq_of_lt (by omega)]

theorem push_history_idx_lt (B H : Nat) (line : List Nat)
    (hist : List (List Nat)) (idx : Nat) (hH : 0 < H) (hidx : idx < H) :
    (push_history B H line hist idx).2 < H := by
  unfold push_history
  by_cases hl : line = []
  · rw [if_pos hl]
    exact hidx
  · rw [if_neg hl]
    by_cases h : H ≤ idx + 1
    · simpa [h] using hH
    · simpa [h] using (by omega : idx + 1 < H)

theorem parse_input_hist (a : shell_cmd) (t : List shell_cmd)
    (B maxArgs H : Nat) (line : List Nat) (hist : List (List Nat)) (idx : Nat) :
    (parse_input (a :: t) B maxArgs H line hist idx).hist =
      (push_history B H line hist idx).1 := by
  simp only [parse_input]
  cases hfc : found_command (a :: t) B maxArgs line with
  | none => rfl
  | some c => rfl

theorem parse_input_saveIdx (a : shell_cmd) (t : List shell_cmd)
    (B maxArgs H : Nat) (line : List Nat) (hist : List (List Nat)) (idx : Nat) :
    (parse_input (a :: t) B maxArgs H line hist idx).saveIdx =
      (push_history B H line hist idx).2 := by
  simp only [parse_input]
  cases hfc : found_command (a :: t) B maxArgs line with
  | none => rfl
  | some c => rfl

theorem parse_input_arg0 (a : shell_cmd) (t : List shell_cmd)
    (B maxArgs H : Nat) (line : List Nat) (hist : List (List Nat)) (idx : Nat) :
    (parse_input (a :: t) B maxArgs H line hist idx).arg0 =
      (tokenize maxArgs line).head? := by
  simp only [parse_input]
  cases hfc : found_command (a :: t) B maxArgs line with
  | none => rfl
  | some c => rfl

theorem parse_input_nullCompare (a : shell_cmd) (t : List shell_cmd)
    (B maxArgs H : Nat) (line : List Nat) (hist : List (List Nat)) (idx : Nat) :
    (parse_input (a :: t) B maxArgs H line hist idx).nullCompare =
      ((tokenize maxArgs line).head?).isNone := by
  simp only [parse_input]
  cases hfc : found_command (a :: t) B maxArgs line with
  | none => rfl
  | some c => rfl

theorem found_command_of_tok (cmds : List shell_cmd) (B maxArgs : Nat)
    (line : List Nat) (t0 : List Nat) (rest : List (List Nat))
    (htok : tokenize maxArgs line = t0 :: rest) :
    found_command cmds B maxArgs line = find_command cmds t0 (B - 1) := by
  simp only [found_command, htok, List.head?]

theorem parse_input_match (a : shell_cmd) (t : List shell_cmd)
    (B maxArgs H : Nat) (line : List Nat) (hist : List (List Nat)) (idx : Nat)
    (t0 : List Nat) (rest : List (List Nat)) (c : shell_cmd)
    (htok : tokenize maxArgs line = t0 :: rest)
    (hfind : find_command (a :: t) t0 (B - 1) = some c) :
    parse_input (a :: t) B maxArgs H line hist idx =
      ⟨some c, parse_args maxArgs line, rest.length,
       (push_history B H line hist idx).1, (push_history B H line hist idx).2,
       some t0, false⟩ := by
  have hfd : found_command (a :: t) B maxArgs line = some c := by
    rw [found_command_of_tok (a :: t) B maxArgs line t0 rest htok, hfind]
  simp only [parse_input, hfd, htok, List.head?, List.length_cons,
    Nat.add_sub_cancel, Option.isNone_some]

theorem historic_preserves_inv (B H : Nat) (s : EdState) (hs : EdInv B s) :
    EdInv B (historic B H s) := by
  obtain ⟨h1, h2, h3⟩ := hs
  unfold historic
  by_cases hin : 0 ≤ s.histIdx ∧ s.histIdx < (H : Int)
  · rw [if_pos hin]
    by_cases he : getEntry s.hist s.histIdx.toNat = []
    · rw [if_pos he]
      exact ⟨h1, h2, h3⟩
    · rw [if_neg he]
      refine ⟨Nat.le_refl _, ?_, h3⟩
      show ((getEntry s.hist s.histIdx.toNat).take (B - 1)).length ≤ B - 1
      rw [List.length_take]
      have := h3 s.histIdx.toNat
      omega
  · rw [if_neg hin]
    exact ⟨Nat.le_refl _, by show ([] : List Nat).length ≤ B - 1; simp, h3⟩

theorem shell_step_preserves_inv (B H maxArgs : Nat) (cmds : List shell_cmd)
    (hB : 2 ≤ B) (s : EdState) (e : Ev) (hs : EdInv B s) :
    EdInv B (shell_step B H maxArgs cmds s e) := by
  obtain ⟨h1, h2, h3⟩ := hs
  cases e with
  | ch d =>
    simp only [shell_step]
    by_cases hd : d < 32
    · rw [if_pos hd]
      exact ⟨h1, h2, h3⟩
    · rw [if_neg hd]
      by_cases hfull : s.line.length < B - 1
      · rw [if_pos hfull]
        refine ⟨?_, ?_, h3⟩
        · show s.cursor + 1 ≤ (insertAt s.line s.cursor d).length
          rw [insertAt_length s.line s.cursor d h1]
          omega
        · show (insertAt s.line s.cursor d).length ≤ B - 1
          rw [insertAt_length s.line s.cursor d h1]
          omega
      · rw [if_neg hfull]
        refine ⟨Nat.le_refl _, ?_, h3⟩
        show ([d] : List Nat).length ≤ B - 1
        simp only [List.length_singleton]
        omega
  | back =>
    simp only [shell_step]
    by_cases hc : 0 < s.cursor
    · rw [if_pos hc]
      refine ⟨?_, ?_, h3⟩
      · show s.cursor - 1 ≤ (removeAt s.line (s.cursor - 1)).length
        rw [removeAt_length s.line (s.cursor - 1) (by omega)]
        omega
      · show (removeAt s.line (s.cursor - 1)).length ≤ B - 1
        rw [removeAt_length s.line (s.cursor - 1) (by omega)]
        omega
    · rw [if_neg hc]
      exact ⟨h1, h2, h3⟩
  | del =>
    simp only [shell_step]
    by_cases hc : s.cursor < s.line.length
    · rw [if_pos hc]
      refine ⟨?_, ?_, h3⟩
      · show s.cursor ≤ (removeAt s.line s.cursor).length
        rw [removeAt_length s.line s.cursor hc]
        omega
      · show (removeAt s.line s.cursor).length ≤ B - 1
        rw [removeAt_length s.line s.cursor hc]
        omega
    · rw [if_neg hc]
      exact ⟨h1, h2, h3⟩
  | left =>
    simp only [shell_step]
    by_cases hc : 0 < s.cursor
    · rw [if_pos hc]
      refine ⟨?_, h2, h3⟩
      show s.cursor - 1 ≤ s.line.length
      omega
    · rw [if_neg hc]
      exact ⟨h1, h2, h3⟩
  | right =>
    simp only [shell_step]
    by_cases hc : s.cursor < s.line.length
    · rw [if_pos hc]
      refine ⟨?_, h2, h3⟩
      show s.cursor + 1 ≤ s.line.length
      omega
    · rw [if_neg hc]
      exact ⟨h1, h2, h3⟩
  | home => exact ⟨Nat.zero_le _, h2, h3⟩
  | toEnd => exact ⟨Nat.le_refl _, h2, h3⟩
  | up => exact historic_preserves_inv B H _ ⟨h1, h2, h3⟩
  | down => exact historic_preserves_inv B H _ ⟨h1, h2, h3⟩
  | nl =>
    simp only [shell_step]
    refine ⟨Nat.le_refl _, by show ([] : List Nat).length ≤ B - 1; simp, ?_⟩
    show ∀ i, (getEntry (parse_input cmds B maxArgs H s.line s.hist s.saveIdx).hist i).length ≤ B - 1
    cases cmds with
    | nil => exact h3
    | cons a t =>
      rw [parse_input_hist a t B maxArgs H s.line s.hist s.saveIdx]
      exact push_history_entry_le B H s.line s.hist s.saveIdx h3

theorem foldl_preserves_inv (B H maxArgs : Nat) (cmds : List shell_cmd)
    (hB : 2 ≤ B) :
    ∀ (evs : List Ev) (s : EdState), EdInv B s →
      EdInv B (evs.foldl (shell_step B H maxArgs cmds) s) := by
  intro evs
  induction evs with
  | nil => intro s hs; exact hs
  | cons e es ih =>
    intro s hs
    exact ih _ (shell_step_preserves_inv B H maxArgs cmds hB s e hs)

theorem edInit_inv (B H : Nat) : EdInv B (edInit H) := by
  refine ⟨Nat.le_refl _, by simp [edInit], ?_⟩
  intro i
  simp [edInit, getEntry_replicate]

theorem edRun_inv (B H maxArgs : Nat) (cmds : List shell_cmd) (hB : 2 ≤ B)
    (evs : List Ev) : EdInv B (edRun B H maxArgs cmds evs) :=
  foldl_preserves_inv B H maxArgs cmds hB evs (edInit H) (edInit_inv B H)

theorem history_run_idx (B H : Nat) :
    ∀ (lines : List (List Nat)) (hist : List (List Nat)) (idx : Nat),
      idx < H → (∀ x ∈ lines, x ≠ []) →
      (history_run B H lines hist idx).2 = (idx + lines.length) % H := by
  intro lines
  induction lines with
  | nil =>
    intro hist idx hidx hne
    simp only [history_run, List.foldl_nil, List.length_nil, Nat.add_zero]
    rw [Nat.mod_eq_of_lt hidx]
  | cons a ls ih =>
    intro hist idx hidx hne
    have ha : a ≠ [] := hne a (by simp)
    have hlt := push_history_idx_lt B H a hist idx (by omega) hidx
    have hmod := push_history_idx_mod B H a hist idx hidx ha
    have hrun : history_run B H (a :: ls) hist idx =
        history_run B H ls (push_history B H a hist idx).1
          (push_history B H a hist idx).2 := rfl
    rw [hrun, ih _ _ hlt (fun x hx => hne x (by simp [hx])), hmod,
      Nat.mod_add_mod, List.length_cons]
    congr 1
    omega

theorem history_run_length (B H : Nat) :
    ∀ (lines : List (List Nat)) (hist : List (List Nat)) (idx : Nat),
      (history_run B H lines hist idx).1.length = hist.length := by
  intro lines
  induction lines with
  | nil => intro hist idx; rfl
  | cons a ls ih =>
    intro hist idx
    have hrun : history_run B H (a :: ls) hist idx =
        history_run B H ls (push_history B H a hist idx).1
          (push_history B H a hist idx).2 := rfl
    rw [hrun, ih, push_history_length]

theorem rd_loop_step (s s' : RdState) (b : Nat) (fuel : Nat)
    (h : read_iteration s = some (b, s')) :
    rd_loop (fuel + 1) s = (b :: (rd_loop fuel s').1, (rd_loop fuel s').2) := by
  simp [rd_loop, h]

theorem rd_loop_stop (s : RdState) (fuel : Nat)
    (h : read_iteration s = none) : rd_loop fuel s = ([], s) := by
  cases fuel with
  | zero => rfl
  | succ f => simp [rd_loop, h]

theorem read_iteration_last (b : Nat) (fdF fdC : Int) :
    read_iteration ⟨[b], true, none, fdF, fdC⟩ =
      some (b, ⟨[], false, if b ≠ 10 then some (10 : Nat) else none, fdC, fdC⟩) := by
  simp [read_iteration]

theorem read_iteration_mid (b b2 : Nat) (rest2 : List Nat) (fdF fdC : Int) :
    read_iteration ⟨b :: b2 :: rest2, true, none, fdF, fdC⟩ =
      some (b, ⟨b2 :: rest2, true, none, fdF, fdC⟩) := by
  simp [read_iteration]

theorem read_iteration_inject (b : Nat) (fdF fdC : Int) :
    read_iteration ⟨[], false, some b, fdF, fdC⟩ =
      some (b, ⟨[], false, none, fdF, fdC⟩) := by
  simp [read_iteration]

theorem read_iteration_idle (fdF fdC : Int) :
    read_iteration ⟨[], false, none, fdF, fdC⟩ = none := by
  simp [read_iteration]

theorem rd_loop_run (fdF fdC : Int) :
    ∀ (file : List Nat) (fuel : Nat), file ≠ [] → 2 * file.length + 1 ≤ fuel →
      rd_loop fuel ⟨file, true, none, fdF, fdC⟩ =
        (trailing_newline_splice file, ⟨[], false, none, fdC, fdC⟩) := by
  intro file
  induction file with
  | nil => intro fuel h; exact absurd rfl h
  | cons b rest ih =>
    intro fuel hne hfuel
    cases rest with
    | nil =>
      have hfuel3 : fuel = (fuel - 3) + 2 + 1 := by
        simp only [List.length_cons, List.length_nil] at hfuel
        omega
      rw [hfuel3, rd_loop_step _ _ _ _ (read_iteration_last b fdF fdC)]
      by_cases hb : b = 10
      · subst hb
        simp only [ne_eq, not_true_eq_false, if_neg, reduceIte]
        rw [rd_loop_stop _ _ (read_iteration_idle fdC fdC)]
        simp [trailing_newline_splice]
      · simp only [ne_eq, hb, not_false_eq_true, if_pos, reduceIte]
        have hfuel2 : fuel - 3 + 2 = (fuel - 3 + 1) + 1 := by omega
        rw [hfuel2, rd_loop_step _ _ _ _ (read_iteration_inject 10 fdC fdC)]
        rw [rd_loop_stop _ _ (read_iteration_idle fdC fdC)]
        simp [trailing_newline_splice, hb]
    | cons b2 rest2 =>
      have hfuel1 : fuel = (fuel - 1) + 1 := by
        simp only [List.length_cons] at hfuel
        omega
      rw [hfuel1, rd_loop_step _ _ _ _ (read_iteration_mid b b2 rest2 fdF fdC)]
      rw [ih (fuel - 1) (by simp) (by simp only [List.length_cons] at hfuel ⊢; omega)]
      simp only [trailing_newline_splice, List.getLast?_cons_cons]
      by_cases hl : (b2 :: rest2).getLast? = some 10
      · simp [hl]
      · simp [hl]

theorem dropWhile_all_space (l : List Nat) (h : ∀ c ∈ l, c = 32) :
    l.dropWhile (· == 32) = [] := by
  induction l with
  | nil => simp [List.dropWhile]
  | cons a t ih =>
    rw [List.dropWhile_cons]
    have ha : a = 32 := h a (by simp)
    simp only [ha]
    exact ih (fun c hc => h c (by simp [hc]))

theorem tokenize_all_space (maxArgs : Nat) (l : List Nat)
    (h : ∀ c ∈ l, c = 32) : tokenize maxArgs l = [] := by
  simp only [tokenize, tokenizeLoop]
  rw [dropWhile_all_space l h]

/-- C1 (amended).  Tokenization of a finalized line follows the claimed
left-to-right scan — skip space runs, a leading backtick/single/double
quote is consumed and becomes the closing delimiter, otherwise the
token ends at the next space or end of line — PROVIDED the line holds
strictly fewer tokens than the argument capacity; the line
cmd "a b" c yields the slices "cmd", "a b", "c", and a
backtick-delimited token preserves an embedded double quote
(cmd followed by backtick x doublequote y backtick yields "cmd" and
the three-byte token x-doublequote-y).  The original claim, with no
capacity proviso, is refuted by C1_tokenization_counterexample: once
the capacity is reached the last recorded slice runs on to the end of
the line. -/
theorem C1_tokenization (maxArgs : Nat) (h : 4 ≤ maxArgs) :
    tokenize maxArgs [99, 109, 100, 32, 34, 97, 32, 98, 34, 32, 99] =
      [[99, 109, 100], [97, 32, 98], [99]] ∧
    tokenize maxArgs [99, 109, 100, 32, 96, 120, 34, 121, 96] =
      [[99, 109, 100], [120, 34, 121]] ∧
    ∀ l : List Nat, (tokenizeSpec l).length < maxArgs →
      tokenize maxArgs l = tokenizeSpec l := by
  have hspec1 : tokenizeSpec [99, 109, 100, 32, 34, 97, 32, 98, 34, 32, 99] =
      [[99, 109, 100], [97, 32, 98], [99]] := by decide
  have hspec2 : tokenizeSpec [99, 109, 100, 32, 96, 120, 34, 121, 96] =
      [[99, 109, 100], [120, 34, 121]] := by decide
  refine ⟨?_, ?_, fun l hl => tokenize_eq_tokenizeSpec maxArgs l hl⟩
  · rw [tokenize_eq_tokenizeSpec maxArgs _ (by rw [hspec1]; simp; omega), hspec1]
  · rw [tokenize_eq_tokenizeSpec maxArgs _ (by rw [hspec2]; simp; omega), hspec2]

/-- Witness for C1 at capacity 8. -/
theorem C1_tokenization_witness :
    4 ≤ 8 ∧
    (tokenize 8 [99, 109, 100, 32, 34, 97, 32, 98, 34, 32, 99] =
       [[99, 109, 100], [97, 32, 98], [99]] ∧
     tokenize 8 [99, 109, 100, 32, 96, 120, 34, 121, 96] =
       [[99, 109, 100], [120, 34, 121]] ∧
     ∀ l : List Nat, (tokenizeSpec l).length < 8 →
       tokenize 8 l = tokenizeSpec l) :=
  ⟨by decide, C1_tokenization 8 (by decide)⟩

/-- Counterexample to C1 as stated: with argument capacity 2 the line
"a b c" tokenizes to the slices "a" and "b c" — the second collected
token does NOT stop at the next space as the claim describes for every
finalized line, it runs to the end of the line, while the claimed scan
(tokenizeSpec) yields "a", "b", "c". -/
theorem C1_tokenization_counterexample :
    tokenize 2 [97, 32, 98, 32, 99] = [[97], [98, 32, 99]] ∧
    tokenizeSpec [97, 32, 98, 32, 99] = [[97], [98], [99]] ∧
    tokenize 2 [97, 32, 98, 32, 99] ≠ tokenizeSpec [97, 32, 98, 32, 99] := by
  decide

/-- C9 (amended).  Each token becomes one argument slice and token
collection stops once the argument capacity is reached (at most maxArgs
slices are ever collected); in-place null-termination at the closing
delimiter holds for every collected token EXCEPT the last one collected
when the capacity limit is reached — the break happens right after the
slice is recorded and before the terminator is written, so that final
slice runs to the end of the line (full agreement with the
spec-described slices holds whenever the line has strictly fewer tokens
than the capacity).  The original "including the last one" wording is
refuted by C9_termination_counterexample. -/
theorem C9_termination (maxArgs : Nat) (l : List Nat) (h : 1 ≤ maxArgs) :
    (tokenize maxArgs l).length ≤ maxArgs ∧
    (tokenize maxArgs l).take (maxArgs - 1) =
      (tokenizeSpec l).take (maxArgs - 1) ∧
    ((tokenizeSpec l).length < maxArgs → tokenize maxArgs l = tokenizeSpec l) :=
  ⟨tokenize_length_le maxArgs l h, tokenize_take maxArgs l h,
   fun hl => tokenize_eq_tokenizeSpec maxArgs l hl⟩

/-- Witness for C9 at capacity 4 on the line "ls -l x". -/
theorem C9_termination_witness :
    1 ≤ 4 ∧
    ((tokenize 4 [108, 115, 32, 45, 108, 32, 120]).length ≤ 4 ∧
     (tokenize 4 [108, 115, 32, 45, 108, 32, 120]).take (4 - 1) =
       (tokenizeSpec [108, 115, 32, 45, 108, 32, 120]).take (4 - 1) ∧
     ((tokenizeSpec [108, 115, 32, 45, 108, 32, 120]).length < 4 →
       tokenize 4 [108, 115, 32, 45, 108, 32, 120] =
         tokenizeSpec [108, 115, 32, 45, 108, 32, 120])) :=
  ⟨by decide, C9_termination 4 [108, 115, 32, 45, 108, 32, 120] (by decide)⟩

/-- Counterexample to C9 as stated: with argument capacity 2 the line
"ls -l -a" yields the slices "ls" and "-l -a": the second (last)
collected slice still contains its closing delimiter position (the
space, byte 32) because the loop broke before null-terminating it;
terminated-in-place slices would have been "ls", "-l" (and "-a"). -/
theorem C9_termination_counterexample :
    tokenize 2 [108, 115, 32, 45, 108, 32, 45, 97] =
      [[108, 115], [45, 108, 32, 45, 97]] ∧
    tokenizeSpec [108, 115, 32, 45, 108, 32, 45, 97] =
      [[108, 115], [45, 108], [45, 97]] := by
  decide

/-- C2 (confirmed).  When the first token of a finalized line matches a
registered command (first match from the registry head under the
bounded compare), parse_input records the command, decrements the
argument count by one, and the dispatcher invokes the handler through
shell_cmd_exec with the argument array advanced by one slot: the
handler sees exactly the tokens after the command name and the
decremented count. -/
theorem C2_dispatch_args (a : shell_cmd) (t : List shell_cmd)
    (B maxArgs H : Nat) (line : List Nat) (hist : List (List Nat)) (idx : Nat)
    (t0 : List Nat) (rest : List (List Nat)) (c : shell_cmd)
    (htok : tokenize maxArgs line = t0 :: rest)
    (hfind : find_command (a :: t) t0 (B - 1) = some c) :
    (parse_input (a :: t) B maxArgs H line hist idx).cmd = some c ∧
    (parse_input (a :: t) B maxArgs H line hist idx).nargs = rest.length ∧
    shell_cmd_exec_call (parse_input (a :: t) B maxArgs H line hist idx) =
      some (c.cmdfunc,
        (parse_input (a :: t) B maxArgs H line hist idx).args.drop 1,
        rest.length) ∧
    ((parse_input (a :: t) B maxArgs H line hist idx).args.drop 1).take
      rest.length = rest.map some := by
  have hp := parse_input_match a t B maxArgs H line hist idx t0 rest c htok hfind
  rw [hp]
  refine ⟨rfl, rfl, rfl, ?_⟩
  show ((parse_args maxArgs line).drop 1).take rest.length = rest.map some
  rw [parse_args, htok, List.map_cons, List.cons_append, List.drop_succ_cons,
    List.drop_zero]
  rw [show rest.length = (rest.map some).length from (List.length_map rest some).symm]
  exact List.take_left _ _

/-- Witness for C2: typing the line "ls -l" with an "ls" command
registered invokes its handler with the single argument "-l" and
argument count 1. -/
theorem C2_dispatch_args_witness :
    (tokenize 4 [108, 115, 32, 45, 108] = [108, 115] :: [[45, 108]] ∧
     find_command [lsCmd] [108, 115] (8 - 1) = some lsCmd) ∧
    ((parse_input [lsCmd] 8 4 2 [108, 115, 32, 45, 108] [[], []] 0).cmd = some lsCmd ∧
     (parse_input [lsCmd] 8 4 2 [108, 115, 32, 45, 108] [[], []] 0).nargs =
       [[45, 108]].length ∧
     shell_cmd_exec_call (parse_input [lsCmd] 8 4 2 [108, 115, 32, 45, 108] [[], []] 0) =
       some (lsCmd.cmdfunc,
         (parse_input [lsCmd] 8 4 2 [108, 115, 32, 45, 108] [[], []] 0).args.drop 1,
         [[45, 108]].length) ∧
     ((parse_input [lsCmd] 8 4 2 [108, 115, 32, 45, 108] [[], []] 0).args.drop 1).take
       [[45, 108]].length = [[45, 108]].map some) :=
  ⟨⟨by decide, by decide⟩,
   C2_dispatch_args lsCmd [] 8 4 2 [108, 115, 32, 45, 108] [[], []] 0
     [108, 115] [[45, 108]] lsCmd (by decide) (by decide)⟩

/-- C3 (amended).  For every sequence of input events processed by the
line editor, the session state satisfies
0 ≤ cursor index ≤ end-of-input index ≤ buffer capacity − 1 at all
times (cursor and end-of-input are unsigned, so 0 ≤ holds by type).
The claimed STRICT bound end-of-input < capacity − 1 is refuted by
C3_cursor_bounds_counterexample: the insert guard
input_index < SHELL_CMD_BUFFER_SIZE - 1 lets input_index reach exactly
capacity − 1 (the terminator then occupies the last buffer byte). -/
theorem C3_cursor_bounds (B H maxArgs : Nat) (cmds : List shell_cmd)
    (hB : 2 ≤ B) (evs : List Ev) :
    (edRun B H maxArgs cmds evs).cursor ≤
      (edRun B H maxArgs cmds evs).line.length ∧
    (edRun B H maxArgs cmds evs).line.length ≤ B - 1 := by
  have h := edRun_inv B H maxArgs cmds hB evs
  exact ⟨h.1, h.2.1⟩

/-- Witness for C3: a short editing session at capacity 8. -/
theorem C3_cursor_bounds_witness :
    2 ≤ 8 ∧
    ((edRun 8 2 4 [] [Ev.ch 108, Ev.ch 115, Ev.left, Ev.back, Ev.ch 120, Ev.nl, Ev.up]).cursor ≤
       (edRun 8 2 4 [] [Ev.ch 108, Ev.ch 115, Ev.left, Ev.back, Ev.ch 120, Ev.nl, Ev.up]).line.length ∧
     (edRun 8 2 4 [] [Ev.ch 108, Ev.ch 115, Ev.left, Ev.back, Ev.ch 120, Ev.nl, Ev.up]).line.length ≤ 8 - 1) :=
  ⟨by decide,
   C3_cursor_bounds 8 2 4 [] (by decide)
     [Ev.ch 108, Ev.ch 115, Ev.left, Ev.back, Ev.ch 120, Ev.nl, Ev.up]⟩

/-- Counterexample to C3 as stated: with buffer capacity 4, typing
three printable bytes drives end-of-input to 3 = capacity − 1, so the
claimed invariant end-of-input < capacity − 1 fails in a reachable
state (the amended bound end-of-input ≤ capacity − 1 still holds). -/
theorem C3_cursor_bounds_counterexample :
    ¬ ((edRun 4 2 4 [] [Ev.ch 97, Ev.ch 98, Ev.ch 99]).line.length < 4 - 1) := by
  decide

/-- C4 (confirmed, under the registered-commands precondition).  For a
finalized line handled by parse_input with a non-empty registry (the
whole body is guarded by if(head); start_shell always registers the
builtin commands before any session runs): a non-empty line is copied
raw into the history slot at the write cursor, which advances by one
wrapping modulo the ring size; an empty line leaves history and write
cursor untouched; the slot written is never empty; and appending H + 1
non-empty lines to a fresh ring of capacity H overwrites the oldest
entry — slot 0 ends up holding the last of the H + 1 lines. -/
theorem C4_history_append (a : shell_cmd) (t : List shell_cmd)
    (B maxArgs H : Nat) (line : List Nat) (hist : List (List Nat)) (idx : Nat)
    (hB : 2 ≤ B) (hH : 1 ≤ H) (hidx : idx < H) (hlen : hist.length = H)
    (hline : line.length ≤ B - 1) :
    (line ≠ [] →
      (parse_input (a :: t) B maxArgs H line hist idx).hist = hist.set idx line ∧
      (parse_input (a :: t) B maxArgs H line hist idx).saveIdx = (idx + 1) % H) ∧
    (line = [] →
      (parse_input (a :: t) B maxArgs H line hist idx).hist = hist ∧
      (parse_input (a :: t) B maxArgs H line hist idx).saveIdx = idx) ∧
    (line ≠ [] →
      getEntry (parse_input (a :: t) B maxArgs H line hist idx).hist idx ≠ []) ∧
    (∀ (lines : List (List Nat)) (L : List Nat), lines.length = H + 1 →
      (∀ x ∈ lines, x ≠ []) → lines.getLast? = some L →
      getEntry (history_run B H lines (List.replicate H []) 0).1 0 =
        L.take (B - 1) ∧
      (history_run B H lines (List.replicate H []) 0).2 = (H + 1) % H) := by
  refine ⟨?_, ?_, ?_, ?_⟩
  · intro hne
    constructor
    · rw [parse_input_hist]
      unfold push_history
      rw [if_neg hne, List.take_of_length_le (by omega : line.length ≤ B - 1)]
    · rw [parse_input_saveIdx, push_history_idx_mod B H line hist idx hidx hne]
  · intro hemp
    constructor
    · rw [parse_input_hist]
      unfold push_history
      rw [if_pos hemp]
    · rw [parse_input_saveIdx]
      unfold push_history
      rw [if_pos hemp]
  · intro hne
    rw [parse_input_hist]
    unfold push_history
    rw [if_neg hne]
    rw [getEntry_set_self hist idx _ (by rw [hlen]; exact hidx)]
    exact take_ne_nil_of_ne_nil line (B - 1) hne (by omega)
  · intro lines L hlen1 hall hlast
    have hne0 : lines ≠ [] := by
      intro h0
      rw [h0] at hlast
      simp at hlast
    have hLeq : lines.getLast hne0 = L := by
      have hg := List.getLast?_eq_getLast lines hne0
      rw [hg] at hlast
      exact Option.some.inj hlast
    have hsplit := List.dropLast_append_getLast hne0
    rw [hLeq] at hsplit
    have hdll : lines.dropLast.length = H := by
      rw [List.length_dropLast, hlen1]
      omega
    have hallD : ∀ x ∈ lines.dropLast, x ≠ [] :=
      fun x hx => hall x (List.dropLast_subset lines hx)
    have hidx0 := history_run_idx B H lines.dropLast (List.replicate H []) 0
      (by omega) hallD
    rw [hdll, Nat.zero_add, Nat.mod_self] at hidx0
    have hLne : L ≠ [] := hall L (by rw [← hLeq]; exact List.getLast_mem hne0)
    have hrunlen := history_run_length B H lines.dropLast (List.replicate H []) 0
    have hfold : history_run B H lines (List.replicate H []) 0 =
        push_history B H L
          (history_run B H lines.dropLast (List.replicate H []) 0).1
          (history_run B H lines.dropLast (List.replicate H []) 0).2 := by
      conv_lhs => rw [← hsplit]
      unfold history_run
      rw [List.foldl_append]
      rfl
    rw [hfold, hidx0]
    constructor
    · unfold push_history
      rw [if_neg hLne]
      exact getEntry_set_self _ 0 _
        (by rw [hrunlen, List.length_replicate]; omega)
    · rw [push_history_idx_mod B H L _ 0 (by omega) hLne, Nat.zero_add,
        Nat.add_mod_left]

/-- Witness for C4 at B = 8, H = 2 with the line "hi". -/
theorem C4_history_append_witness :
    (2 ≤ 8 ∧ 1 ≤ 2 ∧ 0 < 2 ∧ ([[], []] : List (List Nat)).length = 2 ∧
     ([104, 105] : List Nat).length ≤ 8 - 1) ∧
    (([104, 105] : List Nat) ≠ [] →
      (parse_input [lsCmd] 8 4 2 [104, 105] [[], []] 0).hist =
        [[], []].set 0 [104, 105] ∧
      (parse_input [lsCmd] 8 4 2 [104, 105] [[], []] 0).saveIdx = (0 + 1) % 2) ∧
    (([104, 105] : List Nat) = [] →
      (parse_input [lsCmd] 8 4 2 [104, 105] [[], []] 0).hist = [[], []] ∧
      (parse_input [lsCmd] 8 4 2 [104, 105] [[], []] 0).saveIdx = 0) ∧
    (([104, 105] : List Nat) ≠ [] →
      getEntry (parse_input [lsCmd] 8 4 2 [104, 105] [[], []] 0).hist 0 ≠ []) ∧
    (∀ (lines : List (List Nat)) (L : List Nat), lines.length = 2 + 1 →
      (∀ x ∈ lines, x ≠ []) → lines.getLast? = some L →
      getEntry (history_run 8 2 lines (List.replicate 2 []) 0).1 0 =
        L.take (8 - 1) ∧
      (history_run 8 2 lines (List.replicate 2 []) 0).2 = (2 + 1) % 2) :=
  ⟨⟨by decide, by decide, by decide, by decide, by decide⟩,
   C4_history_append lsCmd [] 8 4 2 [104, 105] [[], []] 0
     (by decide) (by decide) (by decide) (by decide) (by decide)⟩

/-- C5 (confirmed).  register_command always inserts at the head of the
registry list, lookup walks from the head taking the first
bounded-compare name match, so after registering two commands with the
same name the most recently registered descriptor is the one found and
dispatched by parse_input. -/
theorem C5_shadowing (cmds0 : List shell_cmd) (c1 c2 : shell_cmd)
    (B maxArgs H : Nat) (line t0 : List Nat) (rest : List (List Nat))
    (hist : List (List Nat)) (idx : Nat)
    (hname : c1.name = c2.name)
    (htok : tokenize maxArgs line = t0 :: rest)
    (hmatch : strncmp0 t0 c2.name (B - 1) = true) :
    (∀ (cs : List shell_cmd) (c : shell_cmd), register_command cs c = c :: cs) ∧
    find_command (register_command (register_command cmds0 c1) c2) t0 (B - 1) =
      some c2 ∧
    (parse_input (register_command (register_command cmds0 c1) c2)
      B maxArgs H line hist idx).cmd = some c2 := by
  have hfind : find_command (c2 :: c1 :: cmds0) t0 (B - 1) = some c2 :=
    List.find?_cons_of_pos _ hmatch
  refine ⟨fun _ _ => rfl, hfind, ?_⟩
  simp only [register_command]
  rw [parse_input_match c2 (c1 :: cmds0) B maxArgs H line hist idx t0 rest c2
    htok hfind]

/-- Witness for C5: "foo" registered twice; dispatching the line "foo"
finds the second registration (handler tag 2, not 1). -/
theorem C5_shadowing_witness :
    (fooCmd1.name = fooCmd2.name ∧
     tokenize 4 [102, 111, 111] = [102, 111, 111] :: [] ∧
     strncmp0 [102, 111, 111] fooCmd2.name (8 - 1) = true) ∧
    ((∀ (cs : List shell_cmd) (c : shell_cmd), register_command cs c = c :: cs) ∧
     find_command (register_command (register_command [] fooCmd1) fooCmd2)
       [102, 111, 111] (8 - 1) = some fooCmd2 ∧
     (parse_input (register_command (register_command [] fooCmd1) fooCmd2)
       8 4 2 [102, 111, 111] [[], []] 0).cmd = some fooCmd2) :=
  ⟨⟨by decide, by decide, by decide⟩,
   C5_shadowing [] fooCmd1 fooCmd2 8 4 2 [102, 111, 111] [102, 111, 111] []
     [[], []] 0 (by decide) (by decide) (by decide)⟩

/-- C6 (confirmed).  While input is redirected from a non-empty file,
the byte stream the main prompt loop hands the editor is exactly the
file's bytes, plus exactly one synthetic newline when the file's
terminating byte is not a newline; at the moment of reaching the
recorded size the redirection is torn down: st_size/st_mode cleared
(stActive = false) and the byte source restored to the saved
connection descriptor.  The hypothesis that the file contains no ESC
byte (27) keeps the model exact: an ESC in the stream makes the editor
issue extra reads inside a single iteration, outside the main-loop
read that performs the end-of-file check. -/
theorem C6_redirect_splice (file : List Nat) (fdFile fdConn : Int)
    (hne : file ≠ []) (hesc : (27 : Nat) ∉ file) :
    (rd_trace ⟨file, true, none, fdFile, fdConn⟩).1 =
      trailing_newline_splice file ∧
    (rd_trace ⟨file, true, none, fdFile, fdConn⟩).2 =
      ⟨[], false, none, fdConn, fdConn⟩ := by
  have hrun := rd_loop_run fdFile fdConn file (2 * file.length + 2) hne (by omega)
  have htr : rd_trace ⟨file, true, none, fdFile, fdConn⟩ =
      rd_loop (2 * file.length + 2) ⟨file, true, none, fdFile, fdConn⟩ := rfl
  rw [htr, hrun]
  exact ⟨rfl, rfl⟩

/-- Witness for C6 on the file "ls\npwd" whose last line lacks a
trailing newline: the delivered bytes are the file followed by one
injected newline, and the source reverts to descriptor 3. -/
theorem C6_redirect_splice_witness :
    (([108, 115, 10, 112, 119, 100] : List Nat) ≠ [] ∧
     (27 : Nat) ∉ ([108, 115, 10, 112, 119, 100] : List Nat)) ∧
    ((rd_trace ⟨[108, 115, 10, 112, 119, 100], true, none, 5, 3⟩).1 =
       trailing_newline_splice [108, 115, 10, 112, 119, 100] ∧
     (rd_trace ⟨[108, 115, 10, 112, 119, 100], true, none, 5, 3⟩).2 =
       ⟨[], false, none, 3, 3⟩) :=
  ⟨⟨by decide, by decide⟩,
   C6_redirect_splice [108, 115, 10, 112, 119, 100] 5 3 (by decide) (by decide)⟩

/-- C7 (confirmed).  When a printable byte (≥ 32, the space character)
arrives and the input buffer is full (input_index is not below
capacity − 1), the edit is recovered locally: the buffer is reset to
hold only the newly typed byte (stored at index 0, with cursor and
end-of-input at 1), every other session field — history, history
indices, exit flag — is untouched, so the overflow is not fatal and is
reported by nothing but the visual reset. -/
theorem C7_overflow_reset (B H maxArgs : Nat) (cmds : List shell_cmd)
    (s : EdState) (d : Nat) (hd : 32 ≤ d)
    (hfull : ¬ s.line.length < B - 1) :
    shell_step B H maxArgs cmds s (Ev.ch d) =
      { s with line := [d], cursor := 1 } := by
  simp only [shell_step]
  rw [if_neg (by omega : ¬ d < 32), if_neg hfull]

/-- Witness for C7: buffer of capacity 4 holding "abc" receives byte
120; the state resets to the single byte with exitflag untouched. -/
theorem C7_overflow_reset_witness :
    (32 ≤ 120 ∧ ¬ (([97, 98, 99] : List Nat).length < 4 - 1)) ∧
    shell_step 4 2 4 [] ⟨[97, 98, 99], 3, [[], []], -1, 0, false⟩ (Ev.ch 120) =
      ⟨[120], 1, [[], []], -1, 0, false⟩ :=
  ⟨⟨by decide, by decide⟩,
   C7_overflow_reset 4 2 4 [] ⟨[97, 98, 99], 3, [[], []], -1, 0, false⟩ 120
     (by decide) (by decide)⟩

/-- C8 (amended).  When a finalized line names an existing regular file
of non-zero size but open fails, the redirection state is cleared —
the read descriptor is restored to the original (byte source
unchanged) and st_size/st_mode are reset to zero — but NO error
message is written and the line is NOT treated as an unknown-command
line: the no-such-command branch sits on the same if/else-if chain as
the successful stat branch and is therefore skipped; the failing line
is silently ignored.  The original claim's "error message followed by
the attempted name is written" is refuted by
C8_open_failure_counterexample. -/
theorem C8_open_failure (readf0 savereadf0 : Int) (stMode0 size sIfReg : Nat)
    (hsize : size ≠ 0) :
    newline_dispatch false readf0 savereadf0 0 stMode0 (some (sIfReg, size))
        sIfReg none true =
      ⟨false, false, readf0, readf0, 0, 0, false⟩ := by
  simp [newline_dispatch, hsize]

/-- Witness for C8 at concrete descriptors and S_IFREG = 32768. -/
theorem C8_open_failure_witness :
    (5 : Nat) ≠ 0 ∧
    newline_dispatch false 3 (-1) 0 0 (some (32768, 5)) 32768 none true =
      ⟨false, false, 3, 3, 0, 0, false⟩ :=
  ⟨by decide, C8_open_failure 3 (-1) 0 5 32768 (by decide)⟩

/-- Counterexample to C8 as stated: stat succeeds on a regular file of
size 5 and open fails; the redirection state is indeed cleared with the
byte source unchanged, but wroteNoSuchCmd is false — no error message
and no attempted name are written back, contradicting the claimed
unknown-command treatment. -/
theorem C8_open_failure_counterexample :
    newline_dispatch false 3 (-1) 0 0 (some (32768, 5)) 32768 none true =
      ⟨false, false, 3, 3, 0, 0, false⟩ ∧
    (newline_dispatch false 3 (-1) 0 0 (some (32768, 5)) 32768 none
        true).wroteNoSuchCmd = false := by
  decide

/-- C10 (confirmed).  parse_input's matching loop consults args[0]
unconditionally.  Under the precondition that the finalized line yields
at least one token, args[0] holds that first token (a present, valid
slice) and no NULL comparison happens; a non-empty line consisting only
of spaces yields zero tokens, args[0] stays the NULL left by memset,
and the bounded compare runs against that NULL (the nullCompare flag),
so the comparison is well-defined only under the precondition. -/
theorem C10_arg0_precondition (a : shell_cmd) (t : List shell_cmd)
    (B maxArgs H : Nat) (line : List Nat) (hist : List (List Nat)) (idx : Nat) :
    (∀ (t0 : List Nat) (rest : List (List Nat)),
      tokenize maxArgs line = t0 :: rest →
      (parse_input (a :: t) B maxArgs H line hist idx).arg0 = some t0 ∧
      (parse_input (a :: t) B maxArgs H line hist idx).nullCompare = false) ∧
    (line ≠ [] → (∀ c ∈ line, c = 32) →
      tokenize maxArgs line = [] ∧
      (parse_input (a :: t) B maxArgs H line hist idx).arg0 = none ∧
      (parse_input (a :: t) B maxArgs H line hist idx).nullCompare = true) := by
  constructor
  · intro t0 rest htok
    rw [parse_input_arg0, parse_input_nullCompare, htok]
    exact ⟨rfl, rfl⟩
  · intro hne hsp
    have htok := tokenize_all_space maxArgs line hsp
    rw [parse_input_arg0, parse_input_nullCompare, htok]
    exact ⟨rfl, rfl, rfl⟩

/-- Witness for C10: the line "ls" gives a valid args[0] with no NULL
compare; the all-spaces line "  " leaves args[0] NULL and the compare
runs on it. -/
theorem C10_arg0_precondition_witness :
    ((parse_input [lsCmd] 8 4 2 [108, 115] [[], []] 0).arg0 = some [108, 115] ∧
     (parse_input [lsCmd] 8 4 2 [108, 115] [[], []] 0).nullCompare = false) ∧
    (tokenize 4 [32, 32] = [] ∧
     (parse_input [lsCmd] 8 4 2 [32, 32] [[], []] 0).arg0 = none ∧
     (parse_input [lsCmd] 8 4 2 [32, 32] [[], []] 0).nullCompare = true) :=
  ⟨(C10_arg0_precondition lsCmd [] 8 4 2 [108, 115] [[], []] 0).1
     [108, 115] [] (by decide),
   (C10_arg0_precondition lsCmd [] 8 4 2 [32, 32] [[], []] 0).2
     (by decide) (by decide)⟩

end Appleseed
